import Mathlib

/-!
Verification of the pdf-clip interactive viewer and export pipeline.

The development shallowly embeds the python sources of the repository:
  - viewer/scroll_viewer.py   (ScrollViewer: scroll, zoom, clamping)
  - viewer/image_pages_viewer.py (ImagePagesViewer, ClipSelectViewer: page
    layout, rubber-band selection)
  - viewer/segment_viewer.py  (SegmentViewer: segment drag and drop)
  - main_window.py            (MainWindow: export pass)

Python floats are modelled as exact rationals (ℚ), python ints as ℤ or ℕ.
`int(x)` (truncation toward zero) and `a // b` (floor division) are modelled
explicitly.  Qt geometry values (widths, heights, mouse positions) are plain
integers; Qt float-valued expressions (for example `pixmap.width() *
self.zoom_factor`) stay rational.
-/

namespace PdfClip

/-- Python `int(x)` applied to a float: truncation toward zero.  For a
rational `q = num / den` with positive denominator this is t-division of the
numerator by the denominator. -/
def pyInt (q : ℚ) : ℤ :=
  q.num.tdiv q.den

/-- `pyInt` is the floor for nonnegative arguments and the ceiling for
negative arguments, exactly like python truncation toward zero. -/
theorem pyInt_eq (q : ℚ) : pyInt q = if 0 ≤ q then ⌊q⌋ else ⌈q⌉ := by
  unfold pyInt
  split
  · rw [Rat.floor_def,
      Int.tdiv_eq_ediv (Rat.num_nonneg.mpr (by assumption)) (by positivity)]
  · have hq : ¬(0 : ℚ) ≤ q := by assumption
    have h0 : q ≤ 0 := le_of_not_le hq
    have h1 : (⌈q⌉ : ℤ) = -⌊-q⌋ := by rw [Int.floor_neg]; ring
    have h2 : q.num = -(-q).num := by rw [Rat.neg_num]; ring
    rw [h1, h2, Int.neg_tdiv, Rat.floor_def, Rat.neg_den,
      Int.tdiv_eq_ediv (Rat.num_nonneg.mpr (by linarith)) (by positivity)]

/-- Truncation toward zero changes a value by strictly less than one. -/
theorem abs_pyInt_sub_lt_one (q : ℚ) : |(pyInt q : ℚ) - q| < 1 := by
  rw [pyInt_eq]
  split
  · rw [abs_sub_lt_iff]
    constructor
    · linarith [Int.floor_le q]
    · linarith [Int.sub_one_lt_floor q]
  · rw [abs_sub_lt_iff]
    constructor
    · linarith [Int.ceil_lt_add_one q]
    · linarith [Int.le_ceil q]

/-- Qt `qRound`, used by `QSize * qreal`: round half away from zero. -/
def qRound (q : ℚ) : ℤ :=
  if 0 ≤ q then ⌊q + 1 / 2⌋ else ⌈q - 1 / 2⌉

/-! ## ScrollViewer (viewer/scroll_viewer.py)

State of the base class: `scroll_offset : ℤ`, `zoom_factor : ℚ`, with the
constants `PAGE_SPACING = 10`, `min_zoom = 0.1`, `max_zoom = 5.0`,
`zoom_step = 1.1`.  The viewport height `h` and the subclass-supplied
`get_content_height()` result `ch` are passed as parameters. -/

/-- `min_offset = -self.height() // 2` of `clamp_scroll_offset`
(python floor division applied to `-height`). -/
def scroll_min_offset (h : ℤ) : ℤ :=
  Int.fdiv (-h) 2

/-- `max_offset = max(0, total_height - self.height() // 2)` of
`clamp_scroll_offset`. -/
def scroll_max_offset (ch h : ℤ) : ℤ :=
  max 0 (ch - Int.fdiv h 2)

/-- `ScrollViewer.clamp_scroll_offset`: clamp the scroll offset into
`[min_offset, max_offset]`. -/
def clamp_scroll_offset (ch h s : ℤ) : ℤ :=
  max (scroll_min_offset h) (min s (scroll_max_offset ch h))

/-- Wheel scroll without modifier: `self.scroll_offset -= delta`, then
clamp (`ScrollViewer.wheelEvent`, else branch). -/
def wheel_scroll (ch h s delta : ℤ) : ℤ :=
  clamp_scroll_offset ch h (s - delta)

/-- Drag-to-pan (`ScrollViewer.mouseMoveEvent`): the offset becomes the
press-time offset minus the vertical pointer displacement, then clamped. -/
def drag_pan (ch h startOffset anchorY curY : ℤ) : ℤ :=
  clamp_scroll_offset ch h (startOffset - (curY - anchorY))

/-- Zoom clamping `max(self.min_zoom, min(self.max_zoom, zoom))` with
`min_zoom = 0.1`, `max_zoom = 5.0`. -/
def clamp_zoom (z : ℚ) : ℚ :=
  max (1 / 10) (min 5 z)

/-- The zoom factor after one Ctrl+wheel notch: multiply by the step `1.1`
for a positive wheel delta, divide by it otherwise, then clamp. -/
def new_zoom_of (zoom : ℚ) (delta : ℤ) : ℚ :=
  clamp_zoom (if 0 < delta then zoom * (11 / 10) else zoom / (11 / 10))

/-- The scroll offset computed by the zoom branch of
`ScrollViewer.wheelEvent` before re-clamping:
`int(content_y_before * scale_ratio - center_y)` with
`center_y = self.height() // 2` and
`content_y_before = center_y + old_scroll_offset`. -/
def wheel_zoom_raw_offset (h : ℤ) (zoom : ℚ) (s delta : ℤ) : ℤ :=
  pyInt (((Int.fdiv h 2 : ℤ) + s) * (new_zoom_of zoom delta / zoom)
    - (Int.fdiv h 2 : ℤ))

/-- The zoom branch of `ScrollViewer.wheelEvent`: returns the new
`(zoom_factor, scroll_offset)` pair. -/
def wheel_zoom (ch h : ℤ) (zoom : ℚ) (s delta : ℤ) : ℚ × ℤ :=
  (new_zoom_of zoom delta,
    clamp_scroll_offset ch h (wheel_zoom_raw_offset h zoom s delta))

theorem scroll_min_offset_nonpos (h : ℤ) (hh : 0 ≤ h) :
    scroll_min_offset h ≤ 0 := by
  unfold scroll_min_offset
  rw [Int.fdiv_eq_ediv _ (by norm_num)]
  omega

theorem clamp_scroll_offset_mem (ch h s : ℤ) (hh : 0 ≤ h) :
    scroll_min_offset h ≤ clamp_scroll_offset ch h s ∧
      clamp_scroll_offset ch h s ≤ scroll_max_offset ch h := by
  have h1 : scroll_min_offset h ≤ scroll_max_offset ch h := by
    have := scroll_min_offset_nonpos h hh
    have h2 : (0 : ℤ) ≤ scroll_max_offset ch h := le_max_left _ _
    omega
  unfold clamp_scroll_offset
  omega

theorem clamp_scroll_offset_id (ch h s : ℤ)
    (hlo : scroll_min_offset h ≤ s) (hhi : s ≤ scroll_max_offset ch h) :
    clamp_scroll_offset ch h s = s := by
  unfold clamp_scroll_offset
  omega

/-- C2: after every state change that runs the clamp — wheel scroll, wheel
zoom, and drag-to-pan — the scroll offset lies in the interval
`[-height // 2, max(0, content_height - height // 2)]` (python floor
division, so the lower bound is the integer halving of `-height`), for any
nonnegative viewport height `h` and any content height `ch`. -/
theorem scroll_offset_always_in_clamp_range (ch h s delta : ℤ) (zoom : ℚ)
    (startOffset anchorY curY : ℤ) (hh : 0 ≤ h) :
    (scroll_min_offset h ≤ wheel_scroll ch h s delta ∧
      wheel_scroll ch h s delta ≤ scroll_max_offset ch h) ∧
    (scroll_min_offset h ≤ (wheel_zoom ch h zoom s delta).2 ∧
      (wheel_zoom ch h zoom s delta).2 ≤ scroll_max_offset ch h) ∧
    (scroll_min_offset h ≤ drag_pan ch h startOffset anchorY curY ∧
      drag_pan ch h startOffset anchorY curY ≤ scroll_max_offset ch h) :=
  ⟨clamp_scroll_offset_mem ch h _ hh,
    clamp_scroll_offset_mem ch h _ hh,
    clamp_scroll_offset_mem ch h _ hh⟩

/-- Witness for C2 at a concrete state: height 100, content height 1000,
offset 40, wheel delta 120, zoom 1, pan from anchor 10 to 70. -/
theorem scroll_offset_always_in_clamp_range_witness :
    (0 : ℤ) ≤ 100 ∧
    ((scroll_min_offset 100 ≤ wheel_scroll 1000 100 40 120 ∧
      wheel_scroll 1000 100 40 120 ≤ scroll_max_offset 1000 100) ∧
    (scroll_min_offset 100 ≤ (wheel_zoom 1000 100 1 40 120).2 ∧
      (wheel_zoom 1000 100 1 40 120).2 ≤ scroll_max_offset 1000 100) ∧
    (scroll_min_offset 100 ≤ drag_pan 1000 100 40 10 70 ∧
      drag_pan 1000 100 40 10 70 ≤ scroll_max_offset 1000 100)) :=
  ⟨by norm_num,
    scroll_offset_always_in_clamp_range 1000 100 40 120 1 40 10 70
      (by norm_num)⟩

/-- C1: for every Ctrl+wheel zoom gesture, with `center_y = height // 2`,
the new scroll offset is computed as
`int((center_y + old_offset) * (new_zoom / old_zoom) - center_y)` for the
clamped new zoom, and — provided that result lies inside the clamp range —
the content y-coordinate displayed at the viewport's vertical center is
preserved across the zoom step to within integer rounding: the rescaled
coordinate of the old center content point differs from the new center
content coordinate by strictly less than one pixel. -/
theorem wheel_zoom_center_anchor (ch h : ℤ) (zoom : ℚ) (s delta : ℤ)
    (_hz : 0 < zoom)
    (hlo : scroll_min_offset h ≤ wheel_zoom_raw_offset h zoom s delta)
    (hhi : wheel_zoom_raw_offset h zoom s delta ≤ scroll_max_offset ch h) :
    (wheel_zoom ch h zoom s delta).2 =
      pyInt ((((Int.fdiv h 2 : ℤ) : ℚ) + (s : ℚ)) *
        ((wheel_zoom ch h zoom s delta).1 / zoom) - ((Int.fdiv h 2 : ℤ) : ℚ)) ∧
    |((((Int.fdiv h 2 : ℤ) : ℚ) + ((wheel_zoom ch h zoom s delta).2 : ℚ)) -
      (((Int.fdiv h 2 : ℤ) : ℚ) + (s : ℚ)) *
        ((wheel_zoom ch h zoom s delta).1 / zoom))| < 1 := by
  have hfst : (wheel_zoom ch h zoom s delta).1 = new_zoom_of zoom delta := rfl
  have hsnd : (wheel_zoom ch h zoom s delta).2 =
      wheel_zoom_raw_offset h zoom s delta :=
    clamp_scroll_offset_id ch h _ hlo hhi
  constructor
  · rw [hsnd, hfst]
    rfl
  · rw [hsnd, hfst]
    unfold wheel_zoom_raw_offset
    have key := abs_pyInt_sub_lt_one
      ((((Int.fdiv h 2 : ℤ) : ℚ) + (s : ℚ)) * (new_zoom_of zoom delta / zoom)
        - ((Int.fdiv h 2 : ℤ) : ℚ))
    have harr : ∀ a b c : ℚ, (a + b) - c = b - (c - a) := by intros; ring
    rw [harr]
    exact key

/-- Witness for C1: height 100, content height 10000, zoom 1, offset 0,
wheel delta 120.  The raw recomputed offset is `int(50 * 1.1 - 50) = 5`,
which lies inside the clamp range `[-50, 9950]`. -/
theorem wheel_zoom_center_anchor_witness :
    ((0 : ℚ) < 1 ∧
      scroll_min_offset 100 ≤ wheel_zoom_raw_offset 100 1 0 120 ∧
      wheel_zoom_raw_offset 100 1 0 120 ≤ scroll_max_offset 10000 100) ∧
    ((wheel_zoom 10000 100 1 0 120).2 =
      pyInt ((((Int.fdiv 100 2 : ℤ) : ℚ) + ((0 : ℤ) : ℚ)) *
        ((wheel_zoom 10000 100 1 0 120).1 / 1) -
          ((Int.fdiv 100 2 : ℤ) : ℚ)) ∧
    |((((Int.fdiv 100 2 : ℤ) : ℚ) + (((wheel_zoom 10000 100 1 0 120).2 : ℤ) : ℚ)) -
      (((Int.fdiv 100 2 : ℤ) : ℚ) + ((0 : ℤ) : ℚ)) *
        ((wheel_zoom 10000 100 1 0 120).1 / 1))| < 1) := by
  have hraw : wheel_zoom_raw_offset 100 1 0 120 = 5 := by
    unfold wheel_zoom_raw_offset new_zoom_of clamp_zoom
    rw [pyInt_eq]
    norm_num [Int.fdiv]
  refine ⟨⟨by norm_num, ?_, ?_⟩,
    wheel_zoom_center_anchor 10000 100 1 0 120 (by norm_num) ?_ ?_⟩ <;>
    rw [hraw] <;> decide

/-! ## ImagePagesViewer and ClipSelectViewer (viewer/image_pages_viewer.py)

A page image is modelled by its pixel dimensions `(width, height) : ℕ × ℕ`.
`ClipSelectViewer.get_page_positions` returns per page the float triple
`(y_start, y_end, scaled_width)`; `process_selection` then iterates over
`enumerate(positions)`.  The embedding fuses the two: `page_positions`
carries the page index alongside each triple. -/

/-- The `SelectedRect` dataclass: a page index plus four fractions of the
page dimensions. -/
structure SelectedRect where
  page_index : ℕ
  x_min : ℚ
  x_max : ℚ
  y_min : ℚ
  y_max : ℚ
deriving DecidableEq

/-- Recursion of `ClipSelectViewer.get_page_positions` fused with the
`enumerate` of `process_selection`: starting at drawing coordinate `y` and
page index `i`, each page `(w, h)` contributes
`(i, y_start, y_end, scaled_width)` with `scaled_width = w * zoom` and
`y_end = y_start + h * zoom`, and advances `y` by `h * zoom + PAGE_SPACING`
(the spacing constant is 10). -/
def page_positions_from (zoom : ℚ) : ℚ → ℕ → List (ℕ × ℕ) →
    List (ℕ × ℚ × ℚ × ℚ)
  | _, _, [] => []
  | y, i, d :: rest =>
    (i, y, y + (d.2 : ℚ) * zoom, (d.1 : ℚ) * zoom) ::
      page_positions_from zoom (y + (d.2 : ℚ) * zoom + 10) (i + 1) rest

/-- `ClipSelectViewer.get_page_positions`: the first page starts at
`-scroll_offset`. -/
def page_positions (s : ℤ) (zoom : ℚ) (images : List (ℕ × ℕ)) :
    List (ℕ × ℚ × ℚ × ℚ) :=
  page_positions_from zoom (-(s : ℚ)) 0 images

/-- `page_x_start = (self.width() - scaled_width) // 2` of
`process_selection` — python float floor division by 2. -/
def page_x_start (w : ℤ) (sw : ℚ) : ℚ :=
  ((⌊((w : ℚ) - sw) / 2⌋ : ℤ) : ℚ)

/-- The condition under which `process_selection` does not `continue` past
a page: the selection rectangle overlaps the page's vertical band and its
horizontal extent (both `continue` guards negated and conjoined). -/
def page_overlaps (w : ℤ) (rl rr rt rb : ℤ) (e : ℕ × ℚ × ℚ × ℚ) : Prop :=
  ¬((rb : ℚ) < e.2.1 ∨ (rt : ℚ) > e.2.2.1) ∧
    ¬((rr : ℚ) < page_x_start w e.2.2.2 ∨
      (rl : ℚ) > page_x_start w e.2.2.2 + e.2.2.2)

instance (w : ℤ) (rl rr rt rb : ℤ) (e : ℕ × ℚ × ℚ × ℚ) :
    Decidable (page_overlaps w rl rr rt rb e) := by
  unfold page_overlaps
  infer_instance

/-- `ClipSelectViewer.process_selection`: normalize the two drag endpoints
into `rect_left ≤ rect_right`, `rect_top ≤ rect_bottom`, then for every
page the rectangle overlaps, clip it to the page bounds and convert it to a
`SelectedRect` of fractions of the page's scaled extent. -/
def process_selection (w s : ℤ) (zoom : ℚ) (images : List (ℕ × ℕ))
    (p1 p2 : ℤ × ℤ) : List SelectedRect :=
  let rl := min p1.1 p2.1
  let rr := max p1.1 p2.1
  let rt := min p1.2 p2.2
  let rb := max p1.2 p2.2
  (page_positions s zoom images).filterMap fun e =>
    if page_overlaps w rl rr rt rb e then
      let pxs := page_x_start w e.2.2.2
      let pxe := pxs + e.2.2.2
      some ⟨e.1,
        (max (rl : ℚ) pxs - pxs) / (pxe - pxs),
        (min (rr : ℚ) pxe - pxs) / (pxe - pxs),
        (max (rt : ℚ) e.2.1 - e.2.1) / (e.2.2.1 - e.2.1),
        (min (rb : ℚ) e.2.2.1 - e.2.1) / (e.2.2.1 - e.2.1)⟩
    else none

/-- `ClipSelectViewer.mouseReleaseEvent` while selecting: if the drag's
absolute pixel delta is below 4 in both axes the gesture is discarded and
no selection is emitted, otherwise the selection is processed against the
pages.  Returns the list of emitted `clip_selected` events. -/
def clip_select_release (w s : ℤ) (zoom : ℚ) (images : List (ℕ × ℕ))
    (startPos endPos : ℤ × ℤ) : List SelectedRect :=
  if |endPos.1 - startPos.1| < 4 ∧ |endPos.2 - startPos.2| < 4 then []
  else process_selection w s zoom images startPos endPos

/-- Every entry of `page_positions_from` has positive scaled width and a
positive vertical extent, provided the zoom and all page dimensions are
positive. -/
theorem page_positions_from_pos (zoom : ℚ) (hz : 0 < zoom) :
    ∀ (y : ℚ) (i : ℕ) (imgs : List (ℕ × ℕ)),
      (∀ d ∈ imgs, 0 < d.1 ∧ 0 < d.2) →
      ∀ e ∈ page_positions_from zoom y i imgs,
        0 < e.2.2.2 ∧ e.2.1 < e.2.2.1
  | _, _, [], _ => by simp [page_positions_from]
  | y, i, d :: rest, hd => by
    simp only [page_positions_from, List.mem_cons] at *
    rintro e (rfl | he)
    · have h1 : 0 < (d.1 : ℚ) := by exact_mod_cast (hd d (Or.inl rfl)).1
      have h2 : 0 < (d.2 : ℚ) := by exact_mod_cast (hd d (Or.inl rfl)).2
      refine ⟨mul_pos h1 hz, ?_⟩
      show y < y + (d.2 : ℚ) * zoom
      nlinarith
    · exact page_positions_from_pos zoom hz _ _ rest
        (fun x hx => hd x (Or.inr hx)) e he

/-- The indices carried by `page_positions_from` are consecutive from the
start index. -/
theorem page_positions_from_map_fst (zoom : ℚ) :
    ∀ (y : ℚ) (i : ℕ) (imgs : List (ℕ × ℕ)),
      (page_positions_from zoom y i imgs).map Prod.fst =
        List.range' i imgs.length
  | _, _, [] => by simp [page_positions_from]
  | y, i, d :: rest => by
    simp only [page_positions_from, List.map_cons, List.length_cons,
      List.range'_succ]
    rw [page_positions_from_map_fst zoom _ _ rest]

/-- Mapping a projection over a guarded `filterMap` equals mapping a
matching projection over the corresponding `filter`. -/
theorem map_filterMap_if {α β γ : Type} (p : α → Prop) [DecidablePred p]
    (f : α → β) (g : β → γ) (q : α → γ) (hfg : ∀ a, p a → g (f a) = q a) :
    ∀ l : List α,
      ((l.filterMap fun a => if p a then some (f a) else none).map g) =
        (l.filter fun a => decide (p a)).map q
  | [] => by simp
  | a :: l => by
    by_cases h : p a <;>
      simp [h, hfg a, map_filterMap_if p f g q hfg l]

/-- C8: for every processed rubber-band selection, in any viewer state with
at least one page image, positive zoom factor and positive page dimensions:
every emitted `SelectedRect` satisfies `0 ≤ x_min ≤ x_max ≤ 1` and
`0 ≤ y_min ≤ y_max ≤ 1`; the emitted page indices are exactly the indices
of the pages whose layout band overlaps the selection rectangle, one
emission per overlapping page; and the position list indexes the pages
consecutively from zero. -/
theorem process_selection_emits_valid_rects (w s : ℤ) (zoom : ℚ)
    (images : List (ℕ × ℕ)) (p1 p2 : ℤ × ℤ)
    (_himg : images ≠ []) (hz : 0 < zoom)
    (hdim : ∀ d ∈ images, 0 < d.1 ∧ 0 < d.2) :
    (∀ r ∈ process_selection w s zoom images p1 p2,
      (0 ≤ r.x_min ∧ r.x_min ≤ r.x_max ∧ r.x_max ≤ 1) ∧
      (0 ≤ r.y_min ∧ r.y_min ≤ r.y_max ∧ r.y_max ≤ 1)) ∧
    ((process_selection w s zoom images p1 p2).map SelectedRect.page_index =
      ((page_positions s zoom images).filter fun e =>
        decide (page_overlaps w (min p1.1 p2.1) (max p1.1 p2.1)
          (min p1.2 p2.2) (max p1.2 p2.2) e)).map Prod.fst) ∧
    ((page_positions s zoom images).map Prod.fst =
      List.range images.length) := by
  refine ⟨?_, ?_, ?_⟩
  · intro r hr
    unfold process_selection at hr
    simp only [List.mem_filterMap] at hr
    obtain ⟨e, he, hsome⟩ := hr
    by_cases hov : page_overlaps w (min p1.1 p2.1) (max p1.1 p2.1)
      (min p1.2 p2.2) (max p1.2 p2.2) e
    · rw [if_pos hov] at hsome
      injection hsome with hsome
      subst hsome
      obtain ⟨hy, hx⟩ := hov
      push_neg at hy hx
      obtain ⟨hy1, hy2⟩ := hy
      obtain ⟨hx1, hx2⟩ := hx
      have hpos := page_positions_from_pos zoom hz _ _ images hdim e he
      obtain ⟨hsw, hys⟩ := hpos
      have hsub : page_x_start w e.2.2.2 + e.2.2.2 - page_x_start w e.2.2.2
          = e.2.2.2 := by ring
      have hlr : ((min p1.1 p2.1 : ℤ) : ℚ) ≤ ((max p1.1 p2.1 : ℤ) : ℚ) := by
        exact_mod_cast le_trans (min_le_left p1.1 p2.1) (le_max_left p1.1 p2.1)
      have htb : ((min p1.2 p2.2 : ℤ) : ℚ) ≤ ((max p1.2 p2.2 : ℤ) : ℚ) := by
        exact_mod_cast le_trans (min_le_left p1.2 p2.2) (le_max_left p1.2 p2.2)
      have hyd : (0 : ℚ) < e.2.2.1 - e.2.1 := by linarith
      constructor
      · refine ⟨?_, ?_, ?_⟩
        · apply div_nonneg _ (by linarith [hsub])
          simp only [sub_nonneg, le_max_iff]
          right; rfl
        · rw [div_le_div_iff_of_pos_right (by linarith [hsub])]
          have h1 : ((min p1.1 p2.1 : ℤ) : ℚ) ≤
              min ((max p1.1 p2.1 : ℤ) : ℚ)
                (page_x_start w e.2.2.2 + e.2.2.2) :=
            le_min hlr hx2
          have h2 : page_x_start w e.2.2.2 ≤
              min ((max p1.1 p2.1 : ℤ) : ℚ)
                (page_x_start w e.2.2.2 + e.2.2.2) :=
            le_min hx1 (by linarith)
          simp only [sub_le_sub_iff_right, max_le_iff]
          exact ⟨h1, h2⟩
        · rw [div_le_one (by linarith [hsub])]
          have := min_le_right ((max p1.1 p2.1 : ℤ) : ℚ)
            (page_x_start w e.2.2.2 + e.2.2.2)
          linarith
      · refine ⟨?_, ?_, ?_⟩
        · apply div_nonneg _ (le_of_lt hyd)
          simp only [sub_nonneg, le_max_iff]
          right; rfl
        · rw [div_le_div_iff_of_pos_right hyd]
          have h1 : ((min p1.2 p2.2 : ℤ) : ℚ) ≤
              min ((max p1.2 p2.2 : ℤ) : ℚ) e.2.2.1 := le_min htb hy2
          have h2 : e.2.1 ≤ min ((max p1.2 p2.2 : ℤ) : ℚ) e.2.2.1 :=
            le_min hy1 (le_of_lt hys)
          simp only [sub_le_sub_iff_right, max_le_iff]
          exact ⟨h1, h2⟩
        · rw [div_le_one hyd]
          have := min_le_right ((max p1.2 p2.2 : ℤ) : ℚ) e.2.2.1
          linarith
    · rw [if_neg hov] at hsome
      exact absurd hsome (Option.noConfusion)
  · unfold process_selection
    exact map_filterMap_if _ _ _ _ (fun a _ => rfl) _
  · unfold page_positions
    rw [page_positions_from_map_fst, List.range_eq_range']

/-- Witness for C8: one 100×200 page, zoom 1, viewer width 800, scroll 0,
selection dragged from (10, 10) to (50, 50). -/
theorem process_selection_emits_valid_rects_witness :
    (([((100 : ℕ), (200 : ℕ))] : List (ℕ × ℕ)) ≠ [] ∧ (0 : ℚ) < 1 ∧
      (∀ d ∈ [((100 : ℕ), (200 : ℕ))], 0 < d.1 ∧ 0 < d.2)) ∧
    ((∀ r ∈ process_selection 800 0 1 [(100, 200)] (10, 10) (50, 50),
      (0 ≤ r.x_min ∧ r.x_min ≤ r.x_max ∧ r.x_max ≤ 1) ∧
      (0 ≤ r.y_min ∧ r.y_min ≤ r.y_max ∧ r.y_max ≤ 1)) ∧
    ((process_selection 800 0 1 [(100, 200)] (10, 10) (50, 50)).map
        SelectedRect.page_index =
      ((page_positions 0 1 [(100, 200)]).filter fun e =>
        decide (page_overlaps 800 (min 10 50) (max 10 50)
          (min 10 50) (max 10 50) e)).map Prod.fst) ∧
    ((page_positions 0 1 [(100, 200)]).map Prod.fst =
      List.range [((100 : ℕ), (200 : ℕ))].length)) :=
  ⟨⟨by simp, by norm_num, by decide⟩,
    process_selection_emits_valid_rects 800 0 1 [(100, 200)] (10, 10)
      (50, 50) (by simp) (by norm_num) (by decide)⟩

/-- C9: on rubber-band release, a drag whose absolute pixel delta is below
4 in both axes is discarded (no selection event), and otherwise selection
processing runs against the pages; in particular a drag of 2 pixels in each
axis emits nothing, from any start point and in any viewer state. -/
theorem clip_release_threshold (w s : ℤ) (zoom : ℚ)
    (images : List (ℕ × ℕ)) (p1 p2 : ℤ × ℤ) :
    (|p2.1 - p1.1| < 4 → |p2.2 - p1.2| < 4 →
      clip_select_release w s zoom images p1 p2 = []) ∧
    (¬(|p2.1 - p1.1| < 4 ∧ |p2.2 - p1.2| < 4) →
      clip_select_release w s zoom images p1 p2 =
        process_selection w s zoom images p1 p2) ∧
    (∀ q : ℤ × ℤ,
      clip_select_release w s zoom images q (q.1 + 2, q.2 + 2) = []) := by
  refine ⟨?_, ?_, ?_⟩
  · intro h1 h2
    unfold clip_select_release
    rw [if_pos ⟨h1, h2⟩]
  · intro h
    unfold clip_select_release
    rw [if_neg h]
  · intro q
    unfold clip_select_release
    rw [if_pos]
    exact ⟨by simp, by simp⟩

/-- Witness for C9, applying the threshold theorem at a concrete 2×2 drag
from (7, 9) in a one-page state. -/
theorem clip_release_threshold_witness :
    clip_select_release 800 0 1 [(100, 200)] (7, 9) ((7 : ℤ) + 2, (9 : ℤ) + 2)
      = [] :=
  (clip_release_threshold 800 0 1 [(100, 200)] (7, 9)
    ((7 : ℤ) + 2, (9 : ℤ) + 2)).2.2 (7, 9)

/-! ## SegmentViewer (viewer/segment_viewer.py)

A `Segment` keeps the source selection (`selected_rect`), the placement
(`target_rect`, initialized as a copy of `selected_rect` by
`__post_init__`) and a clipped raster.  The raster itself never influences
the geometry logic except through the integer widths of the cached scaled
pixmap and of the clipped pixmap, which are passed as parameters where the
code reads them.  Page geometries are integer `QSize` pairs; the cached
`page_rects` entries `(page_index, x, y, w, h)` are the `PageRect`
structure. -/

/-- The geometric state of the `Segment` dataclass. -/
structure Segment where
  selected_rect : SelectedRect
  target_rect : SelectedRect
deriving DecidableEq

/-- `Segment.__post_init__`: `target_rect` starts as a copy of
`selected_rect`. -/
def mkSegment (r : SelectedRect) : Segment :=
  ⟨r, r⟩

/-- One cached entry of `SegmentViewer.page_rects`:
`(page_index, x, y, scaled_width, scaled_height)`. -/
structure PageRect where
  idx : ℕ
  x : ℤ
  y : ℤ
  w : ℤ
  h : ℤ
deriving DecidableEq

/-- `SegmentViewer.get_segment_dragging_offset`: the raw pixel delta of the
drag, axis-locked — the axis with the strictly larger absolute magnitude
is kept and the other is zeroed; on a tie the horizontal component is
zeroed. -/
def get_segment_dragging_offset (startPos endPos : ℤ × ℤ) : ℤ × ℤ :=
  if |endPos.1 - startPos.1| > |endPos.2 - startPos.2| then
    (endPos.1 - startPos.1, 0)
  else
    (0, endPos.2 - startPos.2)

/-- `SegmentViewer.get_current_page_index`: the first cached page rect that
contains the position (`0 <= pos.x - px <= pw and 0 <= pos.y - py <= ph`),
or `none`. -/
def get_current_page_index : List PageRect → ℤ × ℤ → Option ℕ
  | [], _ => none
  | e :: rest, pos =>
    if 0 ≤ pos.1 - e.x ∧ pos.1 - e.x ≤ e.w ∧
        0 ≤ pos.2 - e.y ∧ pos.2 - e.y ≤ e.h then
      some e.idx
    else get_current_page_index rest pos

/-- The cross-page branch of `SegmentViewer.mouseReleaseEvent`: the page
index is reassigned and both axes are shifted by
`0.5 - (min + max) / 2`. -/
def recentered_rect (t : SelectedRect) (p : ℕ) : SelectedRect :=
  ⟨p, t.x_min + (1 / 2 - (t.x_min + t.x_max) / 2),
    t.x_max + (1 / 2 - (t.x_min + t.x_max) / 2),
    t.y_min + (1 / 2 - (t.y_min + t.y_max) / 2),
    t.y_max + (1 / 2 - (t.y_min + t.y_max) / 2)⟩

/-- The same-page branch of `SegmentViewer.mouseReleaseEvent`: both axes
are shifted by the given fractional offsets, with no clamping. -/
def translated_rect (t : SelectedRect) (xo yo : ℚ) : SelectedRect :=
  ⟨t.page_index, t.x_min + xo, t.x_max + xo, t.y_min + yo, t.y_max + yo⟩

/-- `SegmentViewer.mouseReleaseEvent` while a segment drag is active.
`pages` are the page geometries (`QSize`, integer pixels), `pageRects` the
cached page rects, `hovered` the hovered segment index, `scaledW` the
cached scaled pixmap width of that segment and `clippedW` its clipped
pixmap width (both integer pixel widths).  If the release point is inside
no page the drag is discarded; if the drop page differs from the segment's
target page the rectangle is recentered on it; otherwise the axis-locked
pixel delta is converted to fractions of the scaled source-page size
(`QSize * float` rounds with `qRound`) and added to the target rect. -/
def segment_release (pages : List (ℤ × ℤ)) (pageRects : List PageRect)
    (segments : List Segment) (hovered : ℕ) (scaledW clippedW : ℤ)
    (dragStart dragEnd releasePos : ℤ × ℤ) : List Segment :=
  match get_current_page_index pageRects releasePos with
  | none => segments
  | some p =>
    match segments[hovered]? with
    | none => segments
    | some seg =>
      let t := seg.target_rect
      if t.page_index ≠ p then
        segments.set hovered ⟨seg.selected_rect, recentered_rect t p⟩
      else
        let factor : ℚ := (scaledW : ℚ) / (clippedW : ℚ)
        let psize := pages.getD seg.selected_rect.page_index (0, 0)
        let spw := qRound ((psize.1 : ℚ) * factor)
        let sph := qRound ((psize.2 : ℚ) * factor)
        let off := get_segment_dragging_offset dragStart dragEnd
        segments.set hovered ⟨seg.selected_rect,
          translated_rect t ((off.1 : ℚ) / (spw : ℚ)) ((off.2 : ℚ) / (sph : ℚ))⟩

/-- A release position inside no cached page rect yields no page index. -/
theorem get_current_page_index_eq_none (pos : ℤ × ℤ) :
    ∀ pageRects : List PageRect,
      (∀ e ∈ pageRects,
        ¬(0 ≤ pos.1 - e.x ∧ pos.1 - e.x ≤ e.w ∧
          0 ≤ pos.2 - e.y ∧ pos.2 - e.y ≤ e.h)) →
      get_current_page_index pageRects pos = none
  | [], _ => rfl
  | e :: rest, hout => by
    unfold get_current_page_index
    rw [if_neg (hout e (List.mem_cons_self e rest))]
    exact get_current_page_index_eq_none pos rest
      fun x hx => hout x (List.mem_cons_of_mem e hx)

/-- The cross-page branch of the release, in closed form. -/
theorem segment_release_cross (pages : List (ℤ × ℤ))
    (pageRects : List PageRect) (segments : List Segment) (hovered : ℕ)
    (scaledW clippedW : ℤ) (dragStart dragEnd releasePos : ℤ × ℤ)
    (p : ℕ) (seg : Segment)
    (hp : get_current_page_index pageRects releasePos = some p)
    (hseg : segments[hovered]? = some seg)
    (hne : seg.target_rect.page_index ≠ p) :
    segment_release pages pageRects segments hovered scaledW clippedW
        dragStart dragEnd releasePos =
      segments.set hovered
        ⟨seg.selected_rect, recentered_rect seg.target_rect p⟩ := by
  unfold segment_release
  simp only [hp, hseg]
  rw [if_pos hne]

/-- The same-page branch of the release, in closed form. -/
theorem segment_release_same (pages : List (ℤ × ℤ))
    (pageRects : List PageRect) (segments : List Segment) (hovered : ℕ)
    (scaledW clippedW : ℤ) (dragStart dragEnd releasePos : ℤ × ℤ)
    (p : ℕ) (seg : Segment)
    (hp : get_current_page_index pageRects releasePos = some p)
    (hseg : segments[hovered]? = some seg)
    (heq : seg.target_rect.page_index = p) :
    segment_release pages pageRects segments hovered scaledW clippedW
        dragStart dragEnd releasePos =
      segments.set hovered ⟨seg.selected_rect,
        translated_rect seg.target_rect
          (((get_segment_dragging_offset dragStart dragEnd).1 : ℚ) /
            ((qRound (((pages.getD seg.selected_rect.page_index (0, 0)).1 : ℚ) *
              ((scaledW : ℚ) / (clippedW : ℚ))) : ℤ) : ℚ))
          (((get_segment_dragging_offset dragStart dragEnd).2 : ℚ) /
            ((qRound (((pages.getD seg.selected_rect.page_index (0, 0)).2 : ℚ) *
              ((scaledW : ℚ) / (clippedW : ℚ))) : ℤ) : ℚ))⟩ := by
  unfold segment_release
  simp only [hp, hseg]
  rw [if_neg (by simp [heq])]

/-- C10: whenever the raw drag delta has equal absolute horizontal and
vertical magnitudes (the zero delta included), the axis-locked offset
zeroes the horizontal component and keeps the vertical one. -/
theorem axis_lock_tie_keeps_vertical (startPos endPos : ℤ × ℤ)
    (h : |endPos.1 - startPos.1| = |endPos.2 - startPos.2|) :
    get_segment_dragging_offset startPos endPos =
      (0, endPos.2 - startPos.2) := by
  unfold get_segment_dragging_offset
  rw [if_neg]
  rw [h]
  exact lt_irrefl _

/-- Witness for C10 at the concrete tie delta (3, -3). -/
theorem axis_lock_tie_keeps_vertical_witness :
    |(3 : ℤ) - 0| = |(-3 : ℤ) - 0| ∧
      get_segment_dragging_offset (0, 0) (3, -3) = (0, (-3 : ℤ) - 0) :=
  ⟨by decide, axis_lock_tie_keeps_vertical (0, 0) (3, -3) (by decide)⟩

/-- C7: a segment drag released at a position outside every target page's
on-screen rectangle is discarded with no mutation: the whole segment list
(hence the dragged segment's `target_rect`, its page index and all four
fractional bounds, and every other segment) is exactly unchanged. -/
theorem drag_release_outside_pages_no_mutation (pages : List (ℤ × ℤ))
    (pageRects : List PageRect) (segments : List Segment) (hovered : ℕ)
    (scaledW clippedW : ℤ) (dragStart dragEnd releasePos : ℤ × ℤ)
    (hout : ∀ e ∈ pageRects,
      ¬(0 ≤ releasePos.1 - e.x ∧ releasePos.1 - e.x ≤ e.w ∧
        0 ≤ releasePos.2 - e.y ∧ releasePos.2 - e.y ≤ e.h)) :
    segment_release pages pageRects segments hovered scaledW clippedW
      dragStart dragEnd releasePos = segments := by
  unfold segment_release
  rw [get_current_page_index_eq_none releasePos pageRects hout]

/-- Witness for C7: one page rect at (10, 10) of size 100×100, release at
the origin, a one-segment list. -/
theorem drag_release_outside_pages_no_mutation_witness :
    (∀ e ∈ [PageRect.mk 0 10 10 100 100],
      ¬(0 ≤ (0 : ℤ) - e.x ∧ (0 : ℤ) - e.x ≤ e.w ∧
        0 ≤ (0 : ℤ) - e.y ∧ (0 : ℤ) - e.y ≤ e.h)) ∧
    segment_release [(100, 100)] [PageRect.mk 0 10 10 100 100]
        [mkSegment ⟨0, 0, 1, 0, 1⟩] 0 40 40 (0, 0) (5, 5) (0, 0) =
      [mkSegment ⟨0, 0, 1, 0, 1⟩] :=
  ⟨by decide,
    drag_release_outside_pages_no_mutation [(100, 100)]
      [PageRect.mk 0 10 10 100 100] [mkSegment ⟨0, 0, 1, 0, 1⟩] 0 40 40
      (0, 0) (5, 5) (0, 0) (by decide)⟩

/-- C6: a segment drag released inside a target page whose index differs
from the segment's current target page reassigns `target_rect.page_index`
to the drop page and recenters the rectangle so its center becomes
`(0.5, 0.5)` — the committed rect spans `0.5 ± half-width` and
`0.5 ± half-height` — and the axis-locked pixel drag delta is not applied:
the result is the same for any two drag gestures. -/
theorem cross_page_drop_recenters (pages : List (ℤ × ℤ))
    (pageRects : List PageRect) (segments : List Segment) (hovered : ℕ)
    (scaledW clippedW : ℤ)
    (dragStart dragEnd dragStart' dragEnd' releasePos : ℤ × ℤ)
    (p : ℕ) (seg : Segment)
    (hp : get_current_page_index pageRects releasePos = some p)
    (hseg : segments[hovered]? = some seg)
    (hne : seg.target_rect.page_index ≠ p) :
    segment_release pages pageRects segments hovered scaledW clippedW
        dragStart dragEnd releasePos =
      segments.set hovered ⟨seg.selected_rect,
        ⟨p, 1 / 2 - (seg.target_rect.x_max - seg.target_rect.x_min) / 2,
          1 / 2 + (seg.target_rect.x_max - seg.target_rect.x_min) / 2,
          1 / 2 - (seg.target_rect.y_max - seg.target_rect.y_min) / 2,
          1 / 2 + (seg.target_rect.y_max - seg.target_rect.y_min) / 2⟩⟩ ∧
    segment_release pages pageRects segments hovered scaledW clippedW
        dragStart dragEnd releasePos =
      segment_release pages pageRects segments hovered scaledW clippedW
        dragStart' dragEnd' releasePos := by
  have h1 := segment_release_cross pages pageRects segments hovered
    scaledW clippedW dragStart dragEnd releasePos p seg hp hseg hne
  have h2 := segment_release_cross pages pageRects segments hovered
    scaledW clippedW dragStart' dragEnd' releasePos p seg hp hseg hne
  refine ⟨?_, h1.trans h2.symm⟩
  rw [h1]
  unfold recentered_rect
  congr 2
  simp only [SelectedRect.mk.injEq]
  exact ⟨trivial, by ring, by ring, by ring, by ring⟩

/-- Witness for C6: a segment with target rect on page 0 spanning
[1/4, 3/4] × [1/4, 1/2], dropped inside page 1 (page rect at (0, 120),
size 100×100, release point (50, 170)). -/
theorem cross_page_drop_recenters_witness :
    (get_current_page_index [PageRect.mk 1 0 120 100 100] (50, 170) =
        some 1 ∧
      ([mkSegment ⟨0, 1/4, 3/4, 1/4, 1/2⟩] :
        List Segment)[0]? = some (mkSegment ⟨0, 1/4, 3/4, 1/4, 1/2⟩) ∧
      (mkSegment ⟨0, 1/4, 3/4, 1/4, 1/2⟩).target_rect.page_index ≠ 1) ∧
    (segment_release [(100, 100)] [PageRect.mk 1 0 120 100 100]
        [mkSegment ⟨0, 1/4, 3/4, 1/4, 1/2⟩] 0 40 40 (0, 0) (7, 3)
        (50, 170) =
      [mkSegment ⟨0, 1/4, 3/4, 1/4, 1/2⟩].set 0
        ⟨(mkSegment ⟨0, 1/4, 3/4, 1/4, 1/2⟩).selected_rect,
          ⟨1, 1 / 2 - ((mkSegment ⟨0, 1/4, 3/4, 1/4, 1/2⟩).target_rect.x_max -
              (mkSegment ⟨0, 1/4, 3/4, 1/4, 1/2⟩).target_rect.x_min) / 2,
            1 / 2 + ((mkSegment ⟨0, 1/4, 3/4, 1/4, 1/2⟩).target_rect.x_max -
              (mkSegment ⟨0, 1/4, 3/4, 1/4, 1/2⟩).target_rect.x_min) / 2,
            1 / 2 - ((mkSegment ⟨0, 1/4, 3/4, 1/4, 1/2⟩).target_rect.y_max -
              (mkSegment ⟨0, 1/4, 3/4, 1/4, 1/2⟩).target_rect.y_min) / 2,
            1 / 2 + ((mkSegment ⟨0, 1/4, 3/4, 1/4, 1/2⟩).target_rect.y_max -
              (mkSegment ⟨0, 1/4, 3/4, 1/4, 1/2⟩).target_rect.y_min) / 2⟩⟩ ∧
      segment_release [(100, 100)] [PageRect.mk 1 0 120 100 100]
          [mkSegment ⟨0, 1/4, 3/4, 1/4, 1/2⟩] 0 40 40 (0, 0) (7, 3)
          (50, 170) =
        segment_release [(100, 100)] [PageRect.mk 1 0 120 100 100]
          [mkSegment ⟨0, 1/4, 3/4, 1/4, 1/2⟩] 0 40 40 (2, 2) (-9, 4)
          (50, 170)) :=
  ⟨⟨by decide, by simp [mkSegment], by decide⟩,
    cross_page_drop_recenters [(100, 100)] [PageRect.mk 1 0 120 100 100]
      [mkSegment ⟨0, 1/4, 3/4, 1/4, 1/2⟩] 0 40 40 (0, 0) (7, 3) (2, 2)
      (-9, 4) (50, 170) 1 (mkSegment ⟨0, 1/4, 3/4, 1/4, 1/2⟩)
      (by decide) (by simp [mkSegment]) (by decide)⟩

/-- C4 (amended): a drag-release commit never touches `selected_rect`
(both branches rebuild the segment with the old `selected_rect`); a
cross-page commit recenters `target_rect`, which stays inside
`[0,1] × [0,1]` whenever the rect's width and height are at most 1 (as
they are for selection-derived rects); but a same-page commit translates
`target_rect` by the axis-locked fractional offset with NO clamping or
normalization, so the committed rect can leave the unit square. -/
theorem committed_target_rect_behavior (pages : List (ℤ × ℤ))
    (pageRects : List PageRect) (segments : List Segment) (hovered : ℕ)
    (scaledW clippedW : ℤ) (dragStart dragEnd releasePos : ℤ × ℤ)
    (p : ℕ) (seg : Segment)
    (hp : get_current_page_index pageRects releasePos = some p)
    (hseg : segments[hovered]? = some seg) :
    (seg.target_rect.page_index ≠ p →
      segment_release pages pageRects segments hovered scaledW clippedW
          dragStart dragEnd releasePos =
        segments.set hovered
          ⟨seg.selected_rect, recentered_rect seg.target_rect p⟩ ∧
      (seg.target_rect.x_min ≤ seg.target_rect.x_max →
        seg.target_rect.x_max - seg.target_rect.x_min ≤ 1 →
        seg.target_rect.y_min ≤ seg.target_rect.y_max →
        seg.target_rect.y_max - seg.target_rect.y_min ≤ 1 →
        (0 ≤ (recentered_rect seg.target_rect p).x_min ∧
          (recentered_rect seg.target_rect p).x_min ≤
            (recentered_rect seg.target_rect p).x_max ∧
          (recentered_rect seg.target_rect p).x_max ≤ 1) ∧
        (0 ≤ (recentered_rect seg.target_rect p).y_min ∧
          (recentered_rect seg.target_rect p).y_min ≤
            (recentered_rect seg.target_rect p).y_max ∧
          (recentered_rect seg.target_rect p).y_max ≤ 1))) ∧
    (seg.target_rect.page_index = p →
      segment_release pages pageRects segments hovered scaledW clippedW
          dragStart dragEnd releasePos =
        segments.set hovered ⟨seg.selected_rect,
          translated_rect seg.target_rect
            (((get_segment_dragging_offset dragStart dragEnd).1 : ℚ) /
              ((qRound (((pages.getD seg.selected_rect.page_index (0, 0)).1 : ℚ) *
                ((scaledW : ℚ) / (clippedW : ℚ))) : ℤ) : ℚ))
            (((get_segment_dragging_offset dragStart dragEnd).2 : ℚ) /
              ((qRound (((pages.getD seg.selected_rect.page_index (0, 0)).2 : ℚ) *
                ((scaledW : ℚ) / (clippedW : ℚ))) : ℤ) : ℚ))⟩) := by
  constructor
  · intro hne
    refine ⟨segment_release_cross pages pageRects segments hovered scaledW
      clippedW dragStart dragEnd releasePos p seg hp hseg hne, ?_⟩
    intro hx1 hx2 hy1 hy2
    unfold recentered_rect
    constructor
    · refine ⟨by linarith, by linarith, by linarith⟩
    · refine ⟨by linarith, by linarith, by linarith⟩
  · intro heq
    exact segment_release_same pages pageRects segments hovered scaledW
      clippedW dragStart dragEnd releasePos p seg hp hseg heq

/-- Witness for the amended C4, instantiated at a cross-page drop: the
segment's target rect `[1/4, 3/4] × [1/4, 1/2]` on page 0 is dropped into
page 1. -/
theorem committed_target_rect_behavior_witness :
    (get_current_page_index [PageRect.mk 1 0 120 100 100] (50, 170) =
        some 1 ∧
      ([mkSegment ⟨0, 1/4, 3/4, 1/4, 1/2⟩] :
        List Segment)[0]? = some (mkSegment ⟨0, 1/4, 3/4, 1/4, 1/2⟩)) ∧
    ((mkSegment ⟨0, 1/4, 3/4, 1/4, 1/2⟩).target_rect.page_index ≠ 1 →
      segment_release [(100, 100)] [PageRect.mk 1 0 120 100 100]
          [mkSegment ⟨0, 1/4, 3/4, 1/4, 1/2⟩] 0 40 40 (0, 0) (6, 2)
          (50, 170) =
        [mkSegment ⟨0, 1/4, 3/4, 1/4, 1/2⟩].set 0
          ⟨(mkSegment ⟨0, 1/4, 3/4, 1/4, 1/2⟩).selected_rect,
            recentered_rect
              (mkSegment ⟨0, 1/4, 3/4, 1/4, 1/2⟩).target_rect 1⟩ ∧
      ((mkSegment ⟨0, 1/4, 3/4, 1/4, 1/2⟩).target_rect.x_min ≤
          (mkSegment ⟨0, 1/4, 3/4, 1/4, 1/2⟩).target_rect.x_max →
        (mkSegment ⟨0, 1/4, 3/4, 1/4, 1/2⟩).target_rect.x_max -
            (mkSegment ⟨0, 1/4, 3/4, 1/4, 1/2⟩).target_rect.x_min ≤ 1 →
        (mkSegment ⟨0, 1/4, 3/4, 1/4, 1/2⟩).target_rect.y_min ≤
          (mkSegment ⟨0, 1/4, 3/4, 1/4, 1/2⟩).target_rect.y_max →
        (mkSegment ⟨0, 1/4, 3/4, 1/4, 1/2⟩).target_rect.y_max -
            (mkSegment ⟨0, 1/4, 3/4, 1/4, 1/2⟩).target_rect.y_min ≤ 1 →
        (0 ≤ (recentered_rect
            (mkSegment ⟨0, 1/4, 3/4, 1/4, 1/2⟩).target_rect 1).x_min ∧
          (recentered_rect
            (mkSegment ⟨0, 1/4, 3/4, 1/4, 1/2⟩).target_rect 1).x_min ≤
            (recentered_rect
              (mkSegment ⟨0, 1/4, 3/4, 1/4, 1/2⟩).target_rect 1).x_max ∧
          (recentered_rect
            (mkSegment ⟨0, 1/4, 3/4, 1/4, 1/2⟩).target_rect 1).x_max ≤ 1) ∧
        (0 ≤ (recentered_rect
            (mkSegment ⟨0, 1/4, 3/4, 1/4, 1/2⟩).target_rect 1).y_min ∧
          (recentered_rect
            (mkSegment ⟨0, 1/4, 3/4, 1/4, 1/2⟩).target_rect 1).y_min ≤
            (recentered_rect
              (mkSegment ⟨0, 1/4, 3/4, 1/4, 1/2⟩).target_rect 1).y_max ∧
          (recentered_rect
            (mkSegment ⟨0, 1/4, 3/4, 1/4, 1/2⟩).target_rect 1).y_max ≤ 1))) :=
  ⟨⟨by decide, by simp [mkSegment]⟩,
    (committed_target_rect_behavior [(100, 100)]
      [PageRect.mk 1 0 120 100 100] [mkSegment ⟨0, 1/4, 3/4, 1/4, 1/2⟩] 0
      40 40 (0, 0) (6, 2) (50, 170) 1 (mkSegment ⟨0, 1/4, 3/4, 1/4, 1/2⟩)
      (by decide) (by simp [mkSegment])).1⟩

/-- Counterexample to C4 as stated: a same-page drag of 60 pixels to the
right, released inside the page, commits a `target_rect` with
`x_max = 3/2 > 1` — the drag result is committed without clamping or
normalization.  The segment starts from the at-rest rect
`[1/2, 9/10] × [1/10, 3/10]`, the page is 100×100 at screen position
(10, 10), the cached scale factor is 1. -/
theorem committed_target_rect_bounds_cex :
    ((segment_release [((100 : ℤ), (100 : ℤ))] [PageRect.mk 0 10 10 100 100]
        [mkSegment ⟨0, 1/2, 9/10, 1/10, 3/10⟩] 0 40 40 (20, 60) (80, 60)
        (90, 60))[0]?).map (fun sg => sg.target_rect.x_max) =
      some (3 / 2) ∧ ¬((3 : ℚ) / 2 ≤ 1) := by
  constructor
  · have h := segment_release_same [((100 : ℤ), (100 : ℤ))]
      [PageRect.mk 0 10 10 100 100]
      [mkSegment ⟨0, 1/2, 9/10, 1/10, 3/10⟩] 0 40 40 (20, 60) (80, 60)
      (90, 60) 0 (mkSegment ⟨0, 1/2, 9/10, 1/10, 3/10⟩) (by decide)
      (by simp [mkSegment]) rfl
    rw [h]
    have hq : qRound ((((100 : ℤ) : ℚ)) * (((40 : ℤ) : ℚ) / ((40 : ℤ) : ℚ)))
        = 100 := by
      unfold qRound
      norm_num
    have hoff : get_segment_dragging_offset (20, 60) (80, 60) =
        ((60 : ℤ), (0 : ℤ)) := by decide
    simp only [List.set, mkSegment, translated_rect, hoff, List.getElem?_cons_zero,
      Option.map_some, List.getD, hq]
    norm_num [qRound]
  · norm_num

/-! ## Export pass (main_window.py, MainWindow.on_export_file)

The PDF backend is abstracted: the source document maps a page index to a
page size `(width, height) : ℚ × ℚ` (via `doc[i].rect`), and the pass is
modelled as the list of output pages it creates, each carrying the
region-copy instructions issued against it.  `sorted(segments, key=lambda
t: t.target_rect.page_index)` is python's stable sort, modelled by the
(stable) `List.mergeSort` on the same key. -/

/-- The sort key `t.target_rect.page_index`. -/
def seg_key (s : Segment) : ℕ :=
  s.target_rect.page_index

/-- The comparison used by the export sort. -/
def seg_le (a b : Segment) : Bool :=
  decide (seg_key a ≤ seg_key b)

/-- `sorted(segments, key=lambda t: t.target_rect.page_index)`. -/
def sort_segments (segs : List Segment) : List Segment :=
  segs.mergeSort seg_le

/-- `MainWindow.get_pdf_rect`: scale a fractional rect by a page size into
the PDF-space rect `(x1, y1, x2, y2)`. -/
def get_pdf_rect (size : ℚ × ℚ) (r : SelectedRect) : ℚ × ℚ × ℚ × ℚ :=
  (size.1 * r.x_min, size.2 * r.y_min, size.1 * r.x_max, size.2 * r.y_max)

/-- One `show_pdf_page` region-copy instruction: the source page index, the
placement rect on the current output page and the clip rect on the source
page (both computed against the current output page's size). -/
structure Instr where
  src : ℕ
  dest : ℚ × ℚ × ℚ × ℚ
  clip : ℚ × ℚ × ℚ × ℚ
deriving DecidableEq

/-- The instruction issued for a segment while the output page of size
`size` is current. -/
def instr_of (size : ℚ × ℚ) (s : Segment) : Instr :=
  ⟨s.selected_rect.page_index, get_pdf_rect size s.target_rect,
    get_pdf_rect size s.selected_rect⟩

/-- An output page created by `new_doc.new_page`: its target page index,
its size (copied from the source page at that index) and the instructions
issued while it was current. -/
structure OutPage where
  idx : ℕ
  width : ℚ
  height : ℚ
  instrs : List Instr
deriving DecidableEq

/-- The export loop of `on_export_file` from the state where
`current_page_index = cur`: returns the instructions still issued against
the page that was current on entry, together with the output pages created
afterwards.  A segment whose target page index equals `cur` is copied onto
the current page; otherwise a new output page sized like the source page
at that target index is created and becomes current. -/
def export_aux (ps : ℕ → ℚ × ℚ) (cur : ℤ) : List Segment →
    List Instr × List OutPage
  | [] => ([], [])
  | s :: rest =>
    if (seg_key s : ℤ) = cur then
      let r := export_aux ps cur rest
      (instr_of (ps (seg_key s)) s :: r.1, r.2)
    else
      let r := export_aux ps (seg_key s : ℤ) rest
      ([], ⟨seg_key s, (ps (seg_key s)).1, (ps (seg_key s)).2,
        instr_of (ps (seg_key s)) s :: r.1⟩ :: r.2)

/-- The output pages of the export loop started with
`current_page_index = -1` (so the first segment always creates a page). -/
def export_pages (ps : ℕ → ℚ × ℚ) (segs : List Segment) : List OutPage :=
  (export_aux ps (-1) segs).2

/-- The whole export pass: sort the segments by target page index (stable)
and run the loop. -/
def export_file (ps : ℕ → ℚ × ℚ) (segs : List Segment) : List OutPage :=
  export_pages ps (sort_segments segs)

theorem seg_le_trans (a b c : Segment) (h1 : seg_le a b) (h2 : seg_le b c) :
    seg_le a c := by
  simp only [seg_le, decide_eq_true_eq] at *
  omega

theorem seg_le_total (a b : Segment) : seg_le a b || seg_le b a := by
  simp only [seg_le]
  by_cases h : seg_key a ≤ seg_key b
  · simp [h]
  · simp [le_of_lt (lt_of_not_le h)]

/-- The structural invariants of the export loop on a key-sorted segment
list all of whose keys exceed the entry index `cur`: its output page
indices are strictly increasing, every created page copies the source
size at its own index and exceeds `cur`, and a page exists for exactly the
target keys other than `cur`. -/
theorem export_aux_spec (ps : ℕ → ℚ × ℚ) :
    ∀ (segs : List Segment) (cur : ℤ),
      segs.Pairwise (fun a b => seg_key a ≤ seg_key b) →
      (∀ t ∈ segs, cur ≤ (seg_key t : ℤ)) →
      (((export_aux ps cur segs).2.map OutPage.idx).Pairwise (· < ·)) ∧
      (∀ p ∈ (export_aux ps cur segs).2, cur < (p.idx : ℤ) ∧
        p.width = (ps p.idx).1 ∧ p.height = (ps p.idx).2) ∧
      (∀ k : ℕ, k ∈ (export_aux ps cur segs).2.map OutPage.idx ↔
        (k ∈ segs.map seg_key ∧ (k : ℤ) ≠ cur))
  | [], cur => by
    intro _ _
    refine ⟨by simp [export_aux], by simp [export_aux], ?_⟩
    simp [export_aux]
  | s :: rest, cur => by
    intro hpw hlo
    obtain ⟨hhead, hpw'⟩ := List.pairwise_cons.mp hpw
    by_cases hc : (seg_key s : ℤ) = cur
    · have ih := export_aux_spec ps rest cur hpw'
        (fun t ht => by
          have := hhead t ht
          omega)
      simp only [export_aux, if_pos hc]
      refine ⟨ih.1, ih.2.1, ?_⟩
      intro k
      rw [ih.2.2 k]
      simp only [List.map_cons, List.mem_cons]
      constructor
      · rintro ⟨hk, hne⟩
        exact ⟨Or.inr hk, hne⟩
      · rintro ⟨hk | hk, hne⟩
        · exfalso
          apply hne
          rw [hk, hc]
        · exact ⟨hk, hne⟩
    · have hlt : cur < (seg_key s : ℤ) :=
        lt_of_le_of_ne (hlo s (List.mem_cons_self s rest)) (Ne.symm hc)
      have ih := export_aux_spec ps rest (seg_key s : ℤ) hpw'
        (fun t ht => by exact_mod_cast hhead t ht)
      simp only [export_aux, if_neg hc]
      refine ⟨?_, ?_, ?_⟩
      · simp only [List.map_cons]
        rw [List.pairwise_cons]
        refine ⟨?_, ih.1⟩
        intro j hj
        obtain ⟨pg, hpg, rfl⟩ := List.mem_map.mp hj
        have := (ih.2.1 pg hpg).1
        exact_mod_cast this
      · intro p hp
        simp only [List.mem_cons] at hp
        rcases hp with rfl | hp
        · exact ⟨hlt, rfl, rfl⟩
        · have h1 := ih.2.1 p hp
          exact ⟨lt_trans hlt h1.1, h1.2⟩
      · intro k
        simp only [List.map_cons, List.mem_cons]
        rw [ih.2.2 k]
        constructor
        · rintro (rfl | ⟨hk, hne⟩)
          · exact ⟨Or.inl rfl, by omega⟩
          · refine ⟨Or.inr hk, ?_⟩
            have hmem := List.mem_map.mp hk
            obtain ⟨t, ht, rfl⟩ := hmem
            have := hhead t ht
            omega
        · rintro ⟨hk | hk, hne⟩
          · exact Or.inl hk
          · by_cases hks : k = seg_key s
            · exact Or.inl hks
            · refine Or.inr ⟨hk, ?_⟩
              intro habs
              exact hks (by exact_mod_cast habs)

/-- C3: for every non-empty segment list the export pass processes the
segments sorted by ascending target page index, stably — the sorted list
is pairwise nondecreasing on the key and, for every key, the segments with
that key appear exactly in their original order — and creates exactly one
output page per distinct target page index, in strictly ascending index
order, each sized to the source document's page at that same index; in
particular the two-selection scenario targeting pages 0 and 1 yields
exactly two output pages in index order with one region-copy each. -/
theorem export_sorted_stable_one_page_per_index (ps : ℕ → ℚ × ℚ)
    (segs : List Segment) (_hne : segs ≠ []) :
    ((sort_segments segs).Pairwise (fun a b => seg_key a ≤ seg_key b)) ∧
    (∀ k : ℕ, (sort_segments segs).filter (fun s => decide (seg_key s = k)) =
      segs.filter (fun s => decide (seg_key s = k))) ∧
    (((export_file ps segs).map OutPage.idx).Pairwise (· < ·)) ∧
    (∀ k : ℕ, k ∈ (export_file ps segs).map OutPage.idx ↔
      k ∈ segs.map seg_key) ∧
    (∀ p ∈ export_file ps segs,
      p.width = (ps p.idx).1 ∧ p.height = (ps p.idx).2) ∧
    ((export_file (fun _ => (595, 842))
        [mkSegment ⟨0, 1/10, 2/5, 1/10, 3/10⟩,
          mkSegment ⟨1, 1/10, 2/5, 1/10, 3/10⟩]).map OutPage.idx = [0, 1] ∧
      (export_file (fun _ => (595, 842))
        [mkSegment ⟨0, 1/10, 2/5, 1/10, 3/10⟩,
          mkSegment ⟨1, 1/10, 2/5, 1/10, 3/10⟩]).map
            (fun p => p.instrs.length) = [1, 1]) := by
  have hpw : (sort_segments segs).Pairwise (fun a b => seg_key a ≤ seg_key b) := by
    have h := List.sorted_mergeSort seg_le_trans seg_le_total segs
    exact h.imp fun hab => by
      simpa [seg_le, decide_eq_true_eq] using hab
  have hperm : List.Perm (sort_segments segs) segs :=
    List.mergeSort_perm segs seg_le
  have hspec := export_aux_spec ps (sort_segments segs) (-1) hpw
    (fun t _ => by
      have := Int.natCast_nonneg (seg_key t)
      omega)
  refine ⟨hpw, ?_, hspec.1, ?_, fun p hp => (hspec.2.1 p hp).2, ?_, ?_⟩
  · intro k
    have hsub : List.Sublist (segs.filter (fun s => decide (seg_key s = k)))
        segs :=
      List.filter_sublist segs
    have hpwf : (segs.filter (fun s => decide (seg_key s = k))).Pairwise
        (fun a b => seg_le a b) := by
      apply List.pairwise_of_forall_mem_list
      intro a ha b hb
      have ha' := (List.mem_filter.mp ha).2
      have hb' := (List.mem_filter.mp hb).2
      simp only [decide_eq_true_eq] at ha' hb'
      simp [seg_le, ha', hb']
    have hsl := List.sublist_mergeSort seg_le_trans seg_le_total hpwf hsub
    have h2 := hsl.filter (fun s => decide (seg_key s = k))
    have h3 : (segs.filter (fun s => decide (seg_key s = k))).filter
        (fun s => decide (seg_key s = k)) =
        segs.filter (fun s => decide (seg_key s = k)) := by
      rw [List.filter_filter]
      congr 1
      funext s
      rw [Bool.and_self]
    rw [h3] at h2
    have h4 : ((sort_segments segs).filter
        (fun s => decide (seg_key s = k))).length =
        (segs.filter (fun s => decide (seg_key s = k))).length :=
      (hperm.filter _).length_eq
    exact (h2.eq_of_length (h4.symm)).symm
  · intro k
    unfold export_file export_pages
    rw [hspec.2.2 k]
    have hk : ((k : ℤ) ≠ (-1 : ℤ)) := by
      have := Int.natCast_nonneg k
      omega
    exact ⟨fun h => ((hperm.map seg_key).mem_iff).mp h.1,
      fun h => ⟨((hperm.map seg_key).mem_iff).mpr h, hk⟩⟩
  · have hs : sort_segments
        [mkSegment ⟨0, 1/10, 2/5, 1/10, 3/10⟩,
          mkSegment ⟨1, 1/10, 2/5, 1/10, 3/10⟩] =
        [mkSegment ⟨0, 1/10, 2/5, 1/10, 3/10⟩,
          mkSegment ⟨1, 1/10, 2/5, 1/10, 3/10⟩] := by
      apply List.mergeSort_of_sorted
      simp [List.pairwise_cons, seg_le, seg_key, mkSegment]
    unfold export_file export_pages
    rw [hs]
    simp [export_aux, seg_key, mkSegment]
  · have hs : sort_segments
        [mkSegment ⟨0, 1/10, 2/5, 1/10, 3/10⟩,
          mkSegment ⟨1, 1/10, 2/5, 1/10, 3/10⟩] =
        [mkSegment ⟨0, 1/10, 2/5, 1/10, 3/10⟩,
          mkSegment ⟨1, 1/10, 2/5, 1/10, 3/10⟩] := by
      apply List.mergeSort_of_sorted
      simp [List.pairwise_cons, seg_le, seg_key, mkSegment]
    unfold export_file export_pages
    rw [hs]
    simp [export_aux, seg_key, mkSegment]

/-- Witness for C3 at the two-segment scenario input. -/
theorem export_sorted_stable_one_page_per_index_witness :
    (([mkSegment ⟨0, 1/10, 2/5, 1/10, 3/10⟩,
        mkSegment ⟨1, 1/10, 2/5, 1/10, 3/10⟩] : List Segment) ≠ []) ∧
    ((export_file (fun _ => (595, 842))
        [mkSegment ⟨0, 1/10, 2/5, 1/10, 3/10⟩,
          mkSegment ⟨1, 1/10, 2/5, 1/10, 3/10⟩]).map OutPage.idx).Pairwise
      (· < ·) :=
  ⟨by simp,
    (export_sorted_stable_one_page_per_index (fun _ => (595, 842))
      [mkSegment ⟨0, 1/10, 2/5, 1/10, 3/10⟩,
        mkSegment ⟨1, 1/10, 2/5, 1/10, 3/10⟩] (by simp)).2.2.1⟩

/-! ## Export failure handling (main_window.py, on_export_file try/except)

Backend failures are injected through boolean oracles: `failOpenSrc` for
`pdf.open(self.file_path)`, `failOpenNew` for `pdf.open()`, `failNewPage i`
for `new_doc.new_page` at target index `i`, `failCopy j` for the `j`-th
`show_pdf_page` call of the pass, and `failSave` for `new_doc.save`.  The
code wraps the whole pass in one `try`; the `except` branch only prints the
error — it closes nothing.  `new_doc.close()` and `doc.close()` run only
after a successful save.  `save` is modelled as atomic: `saved` means a
file exists under the chosen final path. -/

/-- Observable outcome of one `on_export_file` run. -/
structure ExportOutcome where
  srcOpened : Bool
  newOpened : Bool
  saved : Bool
  reported : Bool
  srcClosed : Bool
  newClosed : Bool
deriving DecidableEq

/-- Whether the export loop body raises: walking the sorted segments with
`current_page_index = cur` and copy counter `j`, a new page is created
(which may fail) whenever the target index differs from `cur`, and every
segment issues one copy (which may fail). -/
def copy_pass_fails (failNewPage failCopy : ℕ → Bool) :
    ℤ → ℕ → List Segment → Bool
  | _, _, [] => false
  | cur, j, s :: rest =>
    if (seg_key s : ℤ) ≠ cur then
      if failNewPage (seg_key s) then true
      else if failCopy j then true
      else copy_pass_fails failNewPage failCopy (seg_key s : ℤ) (j + 1) rest
    else if failCopy j then true
    else copy_pass_fails failNewPage failCopy cur (j + 1) rest

/-- The observable behavior of `MainWindow.on_export_file` after a target
path was chosen: the empty-segment guard returns before the `try`; any
exception inside the `try` jumps to the `except` branch, which reports the
error and returns — without closing either document and without saving;
only the fully successful pass saves the file and then closes the output
and source documents. -/
def run_export (segs : List Segment) (failOpenSrc failOpenNew : Bool)
    (failNewPage failCopy : ℕ → Bool) (failSave : Bool) : ExportOutcome :=
  if segs.isEmpty then ⟨false, false, false, false, false, false⟩
  else if failOpenSrc then ⟨false, false, false, true, false, false⟩
  else if failOpenNew then ⟨true, false, false, true, false, false⟩
  else if copy_pass_fails failNewPage failCopy (-1) 0 (sort_segments segs)
    then ⟨true, true, false, true, false, false⟩
  else if failSave then ⟨true, true, false, true, false, false⟩
  else ⟨true, true, true, false, true, true⟩

/-- With no failure injected, the export loop never raises. -/
theorem copy_pass_fails_none :
    ∀ (cur : ℤ) (j : ℕ) (l : List Segment),
      copy_pass_fails (fun _ => false) (fun _ => false) cur j l = false
  | _, _, [] => rfl
  | cur, j, s :: rest => by
    unfold copy_pass_fails
    by_cases hc : (seg_key s : ℤ) ≠ cur
    · rw [if_pos hc]
      exact copy_pass_fails_none _ (j + 1) rest
    · rw [if_neg hc]
      exact copy_pass_fails_none cur (j + 1) rest

/-- C5 (amended): when any backend exception is raised during the export
pass — at output-document creation (`pdf.open()`), at new-page creation,
at a region copy, or at the final save — the export aborts with nothing
saved under the chosen target path's final name (the save happens only on
full success) and the error is reported to the user — but neither the
opened source document nor the partially-constructed output document is
closed on the failure path; both documents are closed (and the file saved)
only when the whole pass succeeds. -/
theorem export_failure_reports_but_leaves_docs_open (segs : List Segment)
    (failOpenNew : Bool) (failNewPage failCopy : ℕ → Bool)
    (failSave : Bool) (hne : segs ≠ [])
    (hfail : failOpenNew = true ∨
      copy_pass_fails failNewPage failCopy (-1) 0
        (sort_segments segs) = true ∨
      failSave = true) :
    ((run_export segs false failOpenNew failNewPage failCopy
        failSave).saved = false ∧
      (run_export segs false failOpenNew failNewPage failCopy
        failSave).reported = true ∧
      (run_export segs false failOpenNew failNewPage failCopy
        failSave).srcClosed = false ∧
      (run_export segs false failOpenNew failNewPage failCopy
        failSave).newClosed = false) ∧
    run_export segs false false (fun _ => false) (fun _ => false) false =
      ⟨true, true, true, false, true, true⟩ := by
  have hempty : segs.isEmpty = false := by
    cases segs with
    | nil => exact absurd rfl hne
    | cons a l => rfl
  constructor
  · unfold run_export
    rw [hempty]
    cases failOpenNew with
    | true => simp
    | false =>
      by_cases hc : copy_pass_fails failNewPage failCopy (-1) 0
          (sort_segments segs) = true
      · simp [hc]
      · have hsave : failSave = true := by
          rcases hfail with h | h | h
          · exact absurd h (by simp)
          · exact absurd h hc
          · exact h
        subst hsave
        simp [hc]
  · unfold run_export
    rw [hempty]
    simp only [Bool.false_eq_true, if_false]
    have hnofail : ¬(copy_pass_fails (fun _ => false) (fun _ => false) (-1) 0
        (sort_segments segs) = true) := by
      rw [copy_pass_fails_none]
      simp
    rw [if_neg hnofail]

/-- Witness for the amended C5: a single segment, all steps succeed except
the final save. -/
theorem export_failure_reports_but_leaves_docs_open_witness :
    (([mkSegment ⟨0, 1/10, 2/5, 1/10, 3/10⟩] : List Segment) ≠ [] ∧
      ((false : Bool) = true ∨
        copy_pass_fails (fun _ => false) (fun _ => false) (-1) 0
          (sort_segments [mkSegment ⟨0, 1/10, 2/5, 1/10, 3/10⟩]) = true ∨
        (true : Bool) = true)) ∧
    (((run_export [mkSegment ⟨0, 1/10, 2/5, 1/10, 3/10⟩] false false
        (fun _ => false) (fun _ => false) true).saved = false ∧
      (run_export [mkSegment ⟨0, 1/10, 2/5, 1/10, 3/10⟩] false false
        (fun _ => false) (fun _ => false) true).reported = true ∧
      (run_export [mkSegment ⟨0, 1/10, 2/5, 1/10, 3/10⟩] false false
        (fun _ => false) (fun _ => false) true).srcClosed = false ∧
      (run_export [mkSegment ⟨0, 1/10, 2/5, 1/10, 3/10⟩] false false
        (fun _ => false) (fun _ => false) true).newClosed = false) ∧
    run_export [mkSegment ⟨0, 1/10, 2/5, 1/10, 3/10⟩] false false
        (fun _ => false) (fun _ => false) false =
      ⟨true, true, true, false, true, true⟩) :=
  ⟨⟨by simp, Or.inr (Or.inr rfl)⟩,
    export_failure_reports_but_leaves_docs_open
      [mkSegment ⟨0, 1/10, 2/5, 1/10, 3/10⟩] false (fun _ => false)
      (fun _ => false) true (by simp) (Or.inr (Or.inr rfl))⟩

/-- Counterexample to C5 as stated: with one segment and a failing region
copy, the error is reported and nothing is saved, but neither document is
released — the `except` branch closes nothing, contradicting the claim
that both documents are closed on all paths. -/
theorem export_docs_released_cex :
    (run_export [mkSegment ⟨0, 1/10, 2/5, 1/10, 3/10⟩] false false
        (fun _ => false) (fun _ => true) false).reported = true ∧
    (run_export [mkSegment ⟨0, 1/10, 2/5, 1/10, 3/10⟩] false false
        (fun _ => false) (fun _ => true) false).saved = false ∧
    ¬((run_export [mkSegment ⟨0, 1/10, 2/5, 1/10, 3/10⟩] false false
        (fun _ => false) (fun _ => true) false).srcClosed = true ∧
      (run_export [mkSegment ⟨0, 1/10, 2/5, 1/10, 3/10⟩] false false
        (fun _ => false) (fun _ => true) false).newClosed = true) := by
  have h : run_export [mkSegment ⟨0, 1/10, 2/5, 1/10, 3/10⟩] false false
      (fun _ => false) (fun _ => true) false =
      ⟨true, true, false, true, false, false⟩ := by
    unfold run_export
    simp [sort_segments, copy_pass_fails]
  rw [h]
  simp

end PdfClip
